import Mathlib

/-!
Verification of the `hescape` HTML escape/unescape library.

Strings are modelled as lists of bytes (`List Nat`, each entry a byte value),
matching the byte-level processing of the Rust source (`input.as_bytes()`).
The `fmt::Write` sink is modelled by a trace of chunk writes together with a
per-write success function `okf : Nat → Bool`: the k-th call to `write_str`
succeeds iff `okf k = true`.  A `WRes` records the chunks actually written,
the number of successful writes, and whether the whole call succeeded
(`ok = false` models an `Err` returned through the `?` operator).
-/

/-- Result of running a sequence of writes against the modelled sink:
the chunks actually written, the count of successful writes, and whether
every attempted write succeeded. -/
structure WRes where
  chunks : List (List Nat)
  cnt : Nat
  ok : Bool
deriving Repr, DecidableEq

/-- Modelled `write_str`: the write at index `cnt` succeeds iff `okf cnt`;
on success the chunk is appended to the trace, on failure nothing is written
and the failure is reported. -/
def writeStr (okf : Nat → Bool) (acc : List (List Nat)) (cnt : Nat) (s : List Nat) : WRes :=
  if okf cnt then ⟨acc ++ [s], cnt + 1, true⟩ else ⟨acc, cnt, false⟩

/-- Translation of the `match` in `escape_to` (src/escape.rs lines 29-39):
the replacement entity for each of the five reserved bytes, `none` for any
other byte.  Byte values: 38 `&`, 60 `<`, 62 `>`, 34 `"`, 39 apostrophe;
the entities are the byte strings `&amp;` `&lt;` `&gt;` `&quot;` `&#39;`. -/
def escapeRepl (b : Nat) : Option (List Nat) :=
  if b = 38 then some [38, 97, 109, 112, 59]
  else if b = 60 then some [38, 108, 116, 59]
  else if b = 62 then some [38, 103, 116, 59]
  else if b = 34 then some [38, 113, 117, 111, 116, 59]
  else if b = 39 then some [38, 35, 51, 57, 59]
  else none

/-- Translation of the fast-path predicate of `escape_to` (src/escape.rs
lines 16-19): whether a byte is one of the five reserved bytes. -/
def isSpecial (b : Nat) : Bool :=
  b == 38 || b == 60 || b == 62 || b == 34 || b == 39

/-- Translation of the scanning loop of `escape_to` (src/escape.rs lines
24-54).  `rem` is the still-unexamined suffix of `input` (always invoked
with `rem = input.drop i`, which makes the recursion structural); `i` and
`last` are the source's cursor and pending-run start; `acc`/`cnt` is the
sink state.  The empty-`rem` case is the code after the loop: flush
`input[last..]` when non-empty. -/
def escapeLoop (okf : Nat → Bool) (input : List Nat) :
    List Nat → Nat → Nat → List (List Nat) → Nat → WRes
  | [], _, last, acc, cnt =>
    if last < input.length then writeStr okf acc cnt (input.drop last)
    else ⟨acc, cnt, true⟩
  | b :: rem, i, last, acc, cnt =>
    match escapeRepl b with
    | none => escapeLoop okf input rem (i + 1) last acc cnt
    | some repl =>
      let r1 : WRes :=
        if last < i then writeStr okf acc cnt ((input.drop last).take (i - last))
        else ⟨acc, cnt, true⟩
      if r1.ok then
        let r2 := writeStr okf r1.chunks r1.cnt repl
        if r2.ok then escapeLoop okf input rem (i + 1) (i + 1) r2.chunks r2.cnt
        else r2
      else r1

/-- Translation of `escape_to` (src/escape.rs lines 11-55): the fast path
performs a single bulk write of the whole input when no reserved byte is
present; otherwise the scanning loop runs from the start. -/
def escape_to (okf : Nat → Bool) (input : List Nat) : WRes :=
  if input.all (fun b => !isSpecial b) then writeStr okf [] 0 input
  else escapeLoop okf input input 0 0 [] 0

/-- Translation of `escape` (src/escape.rs lines 4-8): run `escape_to` into
a `String` buffer, whose writes always succeed, and return the accumulated
output (the concatenation of the written chunks). -/
def escape (input : List Nat) : List Nat :=
  (escape_to (fun _ => true) input).chunks.flatten

/-- Specification-side definition, written from the spec's words (spec §6):
a single reserved byte maps to its entity, any other byte maps to itself. -/
def escapeSpecByte (b : Nat) : List Nat :=
  if b = 38 then [38, 97, 109, 112, 59]
  else if b = 60 then [38, 108, 116, 59]
  else if b = 62 then [38, 103, 116, 59]
  else if b = 34 then [38, 113, 117, 111, 116, 59]
  else if b = 39 then [38, 35, 51, 57, 59]
  else [b]

/-- Specification-side definition of escaping (spec §6): replace each
reserved byte by its entity and pass every other byte through unchanged,
in the original order. -/
def escapeSpec (input : List Nat) : List Nat :=
  (input.map escapeSpecByte).flatten

/-- Pure trace of the chunks the scanning loop of `escape_to` writes,
independent of the sink: the same recursion as `escapeLoop` with the sink
stripped out. -/
def escapeLoopChunks (input : List Nat) : List Nat → Nat → Nat → List (List Nat)
  | [], _, last => if last < input.length then [input.drop last] else []
  | b :: rem, i, last =>
    match escapeRepl b with
    | none => escapeLoopChunks input rem (i + 1) last
    | some repl =>
      (if last < i then [(input.drop last).take (i - last)] else []) ++
        repl :: escapeLoopChunks input rem (i + 1) (i + 1)

/-- Pure trace of the chunks `escape_to` writes: the fast path writes the
whole input as one chunk, the slow path follows the scanning loop. -/
def escapeChunks (input : List Nat) : List (List Nat) :=
  if input.all (fun b => !isSpecial b) then [input]
  else escapeLoopChunks input input 0 0

/-- Replay of a pure chunk trace against the modelled sink: each chunk is
written in order and the first failing write aborts the run. -/
def replay (okf : Nat → Bool) (acc : List (List Nat)) (cnt : Nat) : List (List Nat) → WRes
  | [] => ⟨acc, cnt, true⟩
  | c :: cs =>
    if okf cnt then replay okf (acc ++ [c]) (cnt + 1) cs
    else ⟨acc, cnt, false⟩

/-- Whether a byte is a UTF-8 continuation byte (0x80-0xBF). -/
def isCont (b : Nat) : Bool := 128 ≤ b && b ≤ 191

/-- Modelled from the spec: validity of a UTF-8 byte sequence, the
invariant every Rust `str` satisfies, as a left-to-right scan.  `need` is
the number of continuation bytes still owed by the current character:
an ASCII byte stands alone, a lead byte in 0xC0-0xDF, 0xE0-0xEF,
0xF0-0xF7 owes one, two, three continuation bytes.  This accepts every
well-formed Rust string (Rust's overlong/surrogate/range restrictions
only shrink the set further, so a theorem assuming this predicate covers
all `str` inputs). -/
def validUtf8Aux : Nat → List Nat → Bool
  | need, [] => need == 0
  | 0, b :: rest =>
    if b < 128 then validUtf8Aux 0 rest
    else if b < 192 then false
    else if b < 224 then validUtf8Aux 1 rest
    else if b < 240 then validUtf8Aux 2 rest
    else if b < 248 then validUtf8Aux 3 rest
    else false
  | need + 1, b :: rest => isCont b && validUtf8Aux need rest

/-- Validity of a whole UTF-8 byte sequence: the scan starts at a
character boundary. -/
def validUtf8 (l : List Nat) : Bool := validUtf8Aux 0 l

/-- Rust's `str::is_char_boundary` on a valid UTF-8 byte list: position 0,
the end of the list, or an in-range position holding a non-continuation
byte. -/
def isCharBoundary (l : List Nat) (p : Nat) : Bool :=
  if p = 0 then true
  else if p = l.length then true
  else if p < l.length then !isCont (l.getD p 0)
  else false

/-- Index pairs `(last, i)` of every slice `&input[last..i]` (and the
final `&input[last..]`, as `(last, input.length)`) taken by the scanning
loop of `escape_to`; same recursion as `escapeLoopChunks`. -/
def escapeCutsLoop (input : List Nat) : List Nat → Nat → Nat → List (Nat × Nat)
  | [], _, last => if last < input.length then [(last, input.length)] else []
  | b :: rem, i, last =>
    match escapeRepl b with
    | none => escapeCutsLoop input rem (i + 1) last
    | some _ =>
      (if last < i then [(last, i)] else []) ++ escapeCutsLoop input rem (i + 1) (i + 1)

/-- Index pairs of every slice taken by `escape_to`: the fast path slices
nothing (it writes the whole input), the slow path slices as the loop
does. -/
def escapeCuts (input : List Nat) : List (Nat × Nat) :=
  if input.all (fun b => !isSpecial b) then [] else escapeCutsLoop input input 0 0

/-- Modelled from the spec: the named-reference table (spec §3, §4.1).
The concrete decoding module (`src/unescape.rs`) is not present in the
repository sources, so the table is reconstructed from the spec's words:
entries map a reference name (without the leading `&`, with the trailing
`;` when the entry consumes one; semicolon-free legacy entries per spec
§8) to the byte expansion.  Only the entries the spec names are included
(`amp` `lt` `gt` `quot` `apos`); the full WHATWG list is described by the
spec as mechanical generated data. -/
def namedTable : List (List Nat × List Nat) :=
  [([97, 109, 112, 59], [38]),
   ([97, 109, 112], [38]),
   ([108, 116, 59], [60]),
   ([108, 116], [60]),
   ([103, 116, 59], [62]),
   ([103, 116], [62]),
   ([113, 117, 111, 116, 59], [34]),
   ([113, 117, 111, 116], [34]),
   ([97, 112, 111, 115, 59], [39])]

/-- Exact lookup of a candidate name in the named-reference table. -/
def lookupExact (name : List Nat) : Option (List Nat) :=
  (namedTable.find? (fun e => e.1 == name)).map (fun e => e.2)

/-- Modelled from the spec: longest-prefix name resolution (spec §4.1).
Candidate lengths are tried longest-first; `findNamed cand n` tries
lengths `n` down to `1` and returns `some (k, exp)` when the prefix of
length `k + 1` of `cand` is a registered name with expansion `exp` (the
returned number is the matched length minus one, so a match always
consumes at least one character). -/
def findNamed (cand : List Nat) : Nat → Option (Nat × List Nat)
  | 0 => none
  | n + 1 =>
    if n + 1 ≤ cand.length then
      match lookupExact (cand.take (n + 1)) with
      | some exp => some (n, exp)
      | none => findNamed cand n
    else findNamed cand n

/-- Value of one ASCII digit in the given base (10 or 16), `none` for a
non-digit. -/
def digitVal (base b : Nat) : Option Nat :=
  if 48 ≤ b ∧ b ≤ 57 then some (b - 48)
  else if base = 16 ∧ 97 ≤ b ∧ b ≤ 102 then some (b - 87)
  else if base = 16 ∧ 65 ≤ b ∧ b ≤ 70 then some (b - 55)
  else none

/-- Modelled from the spec: digit accumulation with saturation (spec §4.2
step 3): the value is clamped at 0x110000, one more than the maximum
scalar value, which is classified invalid downstream. Returns the
saturated value and the number of digits consumed. -/
def parseDigitsAux (base acc count : Nat) : List Nat → Nat × Nat
  | [] => (acc, count)
  | b :: rest =>
    match digitVal base b with
    | none => (acc, count)
    | some d => parseDigitsAux base (min (acc * base + d) 1114112) (count + 1) rest

/-- Parse a maximal run of digits in the given base from the front of the
list, saturating the accumulated value. -/
def parseDigits (base : Nat) (l : List Nat) : Nat × Nat := parseDigitsAux base 0 0 l

/-- Modelled from the spec: the 32-entry legacy numeric substitution table
for raw values 0x80-0x9F (spec §3), mapping each to the scalar mandated
by the HTML parsing specification (values not remapped by that table map
to themselves). -/
def legacyTable : List (Nat × Nat) :=
  [(128, 8364), (129, 129), (130, 8218), (131, 402), (132, 8222), (133, 8230),
   (134, 8224), (135, 8225), (136, 710), (137, 8240), (138, 352), (139, 8249),
   (140, 338), (141, 141), (142, 381), (143, 143), (144, 144), (145, 8216),
   (146, 8217), (147, 8220), (148, 8221), (149, 8226), (150, 8211), (151, 8212),
   (152, 732), (153, 8482), (154, 353), (155, 8250), (156, 339), (157, 157),
   (158, 382), (159, 376)]

/-- Lookup in the legacy numeric substitution table. -/
def legacyMap (n : Nat) : Option Nat :=
  (legacyTable.find? (fun e => e.1 == n)).map (fun e => e.2)

/-- Modelled from the spec: the disallowed code point predicate (spec §3):
zero, UTF-16 surrogates, values beyond the maximum scalar value, and the
noncharacter values. -/
def disallowedCp (n : Nat) : Bool :=
  n == 0 || (55296 ≤ n && n ≤ 57343) || n > 1114111 ||
    (64976 ≤ n && n ≤ 65007) || (n % 65536 == 65534) || (n % 65536 == 65535)

/-- Modelled from the spec: resolution of a parsed numeric value (spec
§4.2 step 3): legacy substitution first, then replacement character
U+FFFD for disallowed values, otherwise the value itself. -/
def resolveNumeric (n : Nat) : Nat :=
  match legacyMap n with
  | some r => r
  | none => if disallowedCp n then 65533 else n

/-- UTF-8 encoding of a Unicode scalar value as bytes (the literal text
encoding of spec §4.2 step 3). -/
def utf8Encode (c : Nat) : List Nat :=
  if c < 128 then [c]
  else if c < 2048 then [192 + c / 64, 128 + c % 64]
  else if c < 65536 then [224 + c / 4096, 128 + c / 64 % 64, 128 + c % 64]
  else [240 + c / 262144, 128 + c / 4096 % 64, 128 + c / 64 % 64, 128 + c % 64]

/-- Modelled from the spec: the decoder scan (spec §4.2), as the pure
trace of chunks it writes.  `i` is the cursor, `last` the start of the
pending literal run; `fuel` only bounds the number of loop iterations
(every iteration advances `i` by at least one, so `input.length` fuel is
always sufficient, and fuel exhaustion flushes like end of input).  On
`&` the pending run is flushed; `&#` enters numeric parsing (zero digits
emits the consumed `&#`/`&#x` literally; otherwise the saturated value is
resolved and its UTF-8 encoding emitted, an optional trailing `;`
consumed); otherwise the longest registered named reference is matched
(no match emits the literal `&` and rescans from the next character). -/
def unescapeChunks (input : List Nat) : Nat → Nat → Nat → List (List Nat)
  | 0, _, last => if last < input.length then [input.drop last] else []
  | fuel + 1, i, last =>
    if i < input.length then
      if input.getD i 0 = 38 then
        let flushPart := if last < i then [(input.drop last).take (i - last)] else []
        if i + 1 < input.length ∧ input.getD (i + 1) 0 = 35 then
          let hex : Bool :=
            decide (i + 2 < input.length ∧
              (input.getD (i + 2) 0 = 120 ∨ input.getD (i + 2) 0 = 88))
          let ds := if hex then i + 3 else i + 2
          let base := if hex then 16 else 10
          let pr := parseDigits base (input.drop ds)
          if pr.2 = 0 then
            flushPart ++ ((input.drop i).take (ds - i)) :: unescapeChunks input fuel ds ds
          else
            let after := ds + pr.2
            let after2 :=
              if after < input.length ∧ input.getD after 0 = 59 then after + 1 else after
            flushPart ++
              (utf8Encode (resolveNumeric pr.1)) :: unescapeChunks input fuel after2 after2
        else
          match findNamed (input.drop (i + 1)) 32 with
          | some (n, exp) => flushPart ++ exp :: unescapeChunks input fuel (i + 2 + n) (i + 2 + n)
          | none => flushPart ++ [38] :: unescapeChunks input fuel (i + 1) (i + 1)
      else unescapeChunks input fuel (i + 1) last
    else if last < input.length then [input.drop last] else []

/-- Modelled from the spec: `unescape` (spec §6), the decoder run into a
fresh buffer whose writes always succeed. -/
def unescape (input : List Nat) : List Nat :=
  (unescapeChunks input input.length 0 0).flatten

/-- Modelled from the spec: the streaming variant `unescape_to` (spec §6):
the decoder writes its chunks incrementally into the sink and the first
failing write aborts the call. -/
def unescape_to (okf : Nat → Bool) (input : List Nat) : WRes :=
  replay okf [] 0 (unescapeChunks input input.length 0 0)

theorem replay_all_true (acc : List (List Nat)) (cnt : Nat) (cs : List (List Nat)) :
    replay (fun _ => true) acc cnt cs = ⟨acc ++ cs, cnt + cs.length, true⟩ := by
  induction cs generalizing acc cnt with
  | nil => simp [replay]
  | cons c cs ih => simp [replay, ih]; omega

theorem replay_ok_of_all (okf : Nat → Bool) (acc : List (List Nat)) (cnt : Nat)
    (cs : List (List Nat)) (h : ∀ k, okf k = true) :
    (replay okf acc cnt cs).ok = true := by
  induction cs generalizing acc cnt with
  | nil => simp [replay]
  | cons c cs ih => simp [replay, h, ih]

theorem replay_ok_chunks (okf : Nat → Bool) (acc : List (List Nat)) (cnt : Nat)
    (cs : List (List Nat)) (h : (replay okf acc cnt cs).ok = true) :
    (replay okf acc cnt cs).chunks = acc ++ cs := by
  induction cs generalizing acc cnt with
  | nil => simp [replay]
  | cons c cs ih =>
    by_cases hk : okf cnt = true
    · rw [replay, if_pos hk] at h ⊢
      rw [ih _ _ h]
      simp
    · rw [replay, if_neg hk] at h
      simp at h

theorem replay_fail (okf : Nat → Bool) (acc : List (List Nat)) (cnt : Nat)
    (cs : List (List Nat)) (h : (replay okf acc cnt cs).ok = false) :
    okf (replay okf acc cnt cs).cnt = false ∧
    (replay okf acc cnt cs).chunks = acc ++ cs.take ((replay okf acc cnt cs).cnt - cnt) ∧
    (∀ k, cnt ≤ k → k < (replay okf acc cnt cs).cnt → okf k = true) ∧
    cnt ≤ (replay okf acc cnt cs).cnt := by
  induction cs generalizing acc cnt with
  | nil => simp [replay] at h
  | cons c cs ih =>
    by_cases hk : okf cnt = true
    · rw [replay, if_pos hk] at h ⊢
      obtain ⟨h1, h2, h3, h4⟩ := ih _ _ h
      refine ⟨h1, ?_, ?_, by omega⟩
      · rw [h2]
        have hc : (replay okf (acc ++ [c]) (cnt + 1) cs).cnt - cnt =
            ((replay okf (acc ++ [c]) (cnt + 1) cs).cnt - (cnt + 1)) + 1 := by omega
        rw [hc, List.take_succ_cons]
        simp
      · intro k hk1 hk2
        rcases Nat.eq_or_lt_of_le hk1 with rfl | hlt
        · exact hk
        · exact h3 k hlt hk2
    · rw [replay, if_neg hk] at h ⊢
      simp only
      refine ⟨by simpa using hk, ?_, ?_, le_refl _⟩
      · simp
      · intro k hk1 hk2; omega

/-- Relation between the sink-threaded loop and its pure chunk trace:
running the loop equals replaying the trace. -/
theorem escapeLoop_eq_replay (okf : Nat → Bool) (input : List Nat) :
    ∀ rem i last acc cnt,
      escapeLoop okf input rem i last acc cnt =
        replay okf acc cnt (escapeLoopChunks input rem i last) := by
  intro rem
  induction rem with
  | nil =>
    intro i last acc cnt
    by_cases hl : last < input.length
    · simp only [escapeLoop, escapeLoopChunks, if_pos hl, replay, writeStr]
    · simp [escapeLoop, escapeLoopChunks, hl, replay]
  | cons b rem ih =>
    intro i last acc cnt
    cases hr : escapeRepl b with
    | none => simp only [escapeLoop, escapeLoopChunks, hr]; exact ih _ _ _ _
    | some repl =>
      simp only [escapeLoop, escapeLoopChunks, hr]
      by_cases hli : last < i
      · simp only [if_pos hli, List.singleton_append, writeStr]
        by_cases hk : okf cnt = true
        · simp only [if_pos hk, replay]
          by_cases hk2 : okf (cnt + 1) = true
          · simp only [writeStr, if_pos hk2, if_pos hk, replay]
            simpa using ih _ _ _ _
          · simp [writeStr, hk2, hk, replay]
        · simp [hk, replay]
      · simp only [if_neg hli, List.nil_append, replay]
        by_cases hk : okf cnt = true
        · simp only [writeStr, if_pos hk, if_pos hk, replay]
          simpa using ih _ _ _ _
        · simp [writeStr, hk]

/-- Running `escape_to` equals replaying its pure chunk trace. -/
theorem escape_to_eq_replay (okf : Nat → Bool) (input : List Nat) :
    escape_to okf input = replay okf [] 0 (escapeChunks input) := by
  unfold escape_to escapeChunks
  by_cases hf : input.all (fun b => !isSpecial b) = true
  · simp only [if_pos hf, writeStr, replay]
  · simp only [if_neg hf]
    exact escapeLoop_eq_replay okf input input 0 0 [] 0

theorem escapeSpecByte_of_none {b : Nat} (h : escapeRepl b = none) :
    escapeSpecByte b = [b] := by
  unfold escapeRepl at h
  unfold escapeSpecByte
  split_ifs at h ⊢ <;> simp_all

theorem escapeSpecByte_of_some {b : Nat} {r : List Nat} (h : escapeRepl b = some r) :
    escapeSpecByte b = r := by
  unfold escapeRepl at h
  unfold escapeSpecByte
  split_ifs at h ⊢ <;> simp_all

theorem escapeSpec_nil : escapeSpec [] = [] := rfl

theorem escapeSpec_drop_succ (input : List Nat) (i : Nat) (h : i < input.length) :
    escapeSpec (input.drop i) = escapeSpecByte input[i] ++ escapeSpec (input.drop (i + 1)) := by
  rw [List.drop_eq_getElem_cons h]
  simp only [escapeSpec, List.map_cons, List.flatten_cons]

theorem slice_take_succ (input : List Nat) (last i : Nat) (hle : last ≤ i)
    (h : i < input.length) :
    (input.drop last).take (i + 1 - last) = (input.drop last).take (i - last) ++ [input[i]] := by
  have h1 : i + 1 - last = (i - last) + 1 := by omega
  rw [h1, List.take_succ, List.getElem?_drop]
  have h2 : last + (i - last) = i := by omega
  rw [h2, List.getElem?_eq_getElem h]
  rfl

/-- Joined output of the scanning loop: the pending literal run plus the
spec-side escape of the unexamined suffix. -/
theorem escapeLoopChunks_flatten (input : List Nat) :
    ∀ rem i last, input.drop i = rem → last ≤ i →
      (escapeLoopChunks input rem i last).flatten =
        (input.drop last).take (i - last) ++ escapeSpec (input.drop i) := by
  intro rem
  induction rem with
  | nil =>
    intro i last hrem hle
    have hlen : input.length ≤ i := List.drop_eq_nil_iff.mp hrem
    rw [hrem, escapeSpec_nil, List.append_nil]
    by_cases hl : last < input.length
    · simp only [escapeLoopChunks, if_pos hl, List.flatten_cons, List.flatten_nil,
        List.append_nil]
      rw [List.take_of_length_le]
      rw [List.length_drop]
      omega
    · push_neg at hl
      simp only [escapeLoopChunks, if_neg (by omega : ¬ last < input.length), List.flatten_nil]
      rw [List.drop_eq_nil_iff.mpr hl]
      simp
  | cons b rem ih =>
    intro i last hrem hle
    have hi : i < input.length := by
      by_contra hc
      push_neg at hc
      rw [List.drop_eq_nil_iff.mpr hc] at hrem
      exact List.noConfusion hrem
    have hcons := List.drop_eq_getElem_cons hi
    rw [hcons] at hrem
    have hb : input[i] = b := (List.cons.injEq _ _ _ _ ▸ hrem).1
    have hrem2 : input.drop (i + 1) = rem := (List.cons.injEq _ _ _ _ ▸ hrem).2
    cases hr : escapeRepl b with
    | none =>
      simp only [escapeLoopChunks, hr]
      rw [ih (i + 1) last hrem2 (by omega)]
      rw [escapeSpec_drop_succ input i hi, slice_take_succ input last i hle hi, hb,
        escapeSpecByte_of_none hr]
      simp
    | some repl =>
      simp only [escapeLoopChunks, hr]
      rw [List.flatten_append, List.flatten_cons]
      rw [ih (i + 1) (i + 1) hrem2 (le_refl _)]
      rw [escapeSpec_drop_succ input i hi, hb, escapeSpecByte_of_some hr]
      have hz : i + 1 - (i + 1) = 0 := by omega
      rw [hz, List.take_zero, List.nil_append]
      by_cases hli : last < i
      · simp [if_pos hli]
      · have : last = i := by omega
        subst this
        simp

/-- Escaping a byte list with no reserved byte leaves it unchanged on the
spec side. -/
theorem escapeSpec_of_safe (input : List Nat)
    (h : input.all (fun b => !isSpecial b) = true) : escapeSpec input = input := by
  induction input with
  | nil => rfl
  | cons b rest ih =>
    rw [List.all_cons, Bool.and_eq_true] at h
    have hb : isSpecial b = false := by
      cases hs : isSpecial b
      · rfl
      · rw [hs] at h; simp at h
    have hrepl : escapeRepl b = none := by
      unfold isSpecial at hb
      unfold escapeRepl
      split_ifs with h1 h2 h3 h4 h5 <;> simp_all
    simp only [escapeSpec, List.map_cons, List.flatten_cons, escapeSpecByte_of_none hrepl]
    have := ih h.2
    simp only [escapeSpec] at this
    rw [this]
    rfl

/-- Valid UTF-8 never starts with a continuation byte. -/
theorem validUtf8_head_not_cont {b : Nat} {r : List Nat}
    (h : validUtf8 (b :: r) = true) : isCont b = false := by
  unfold validUtf8 at h
  by_cases h1 : b < 128
  · simp [isCont]; omega
  · by_cases h2 : b < 192
    · rw [validUtf8Aux, if_neg h1, if_pos h2] at h
      exact absurd h (by simp)
    · simp [isCont]; omega

/-- Dropping the bytes up to and including an ASCII byte of a valid UTF-8
scan state leaves a valid UTF-8 list. -/
theorem validUtf8Aux_drop_ascii :
    ∀ (l : List Nat) (need k : Nat), validUtf8Aux need l = true → k < l.length →
      l.getD k 0 < 128 → validUtf8 (l.drop (k + 1)) = true := by
  intro l
  induction l with
  | nil => intro need k _ hk; simp at hk
  | cons b rest ih =>
    intro need k hv hk hak
    match need with
    | 0 =>
      by_cases h1 : b < 128
      · rw [validUtf8Aux, if_pos h1] at hv
        match k with
        | 0 => simpa [validUtf8] using hv
        | k + 1 =>
          have := ih 0 k hv (by simpa using hk) (by simpa using hak)
          simpa using this
      · by_cases h2 : b < 192
        · rw [validUtf8Aux, if_neg h1, if_pos h2] at hv
          exact absurd hv (by simp)
        · match k with
          | 0 => simp only [List.getD_cons_zero] at hak; omega
          | k + 1 =>
            rw [validUtf8Aux, if_neg h1, if_neg h2] at hv
            split_ifs at hv with h3 h4 h5
            · have := ih 1 k hv (by simpa using hk) (by simpa using hak)
              simpa using this
            · have := ih 2 k hv (by simpa using hk) (by simpa using hak)
              simpa using this
            · have := ih 3 k hv (by simpa using hk) (by simpa using hak)
              simpa using this
    | need + 1 =>
      rw [validUtf8Aux, Bool.and_eq_true] at hv
      match k with
      | 0 =>
        simp only [List.getD_cons_zero] at hak
        have := hv.1
        simp [isCont] at this
        omega
      | k + 1 =>
        have := ih need k hv.2 (by simpa using hk) (by simpa using hak)
        simpa using this

/-- Dropping the bytes up to and including an ASCII byte of a valid UTF-8
list leaves a valid UTF-8 list. -/
theorem validUtf8_drop_ascii (l : List Nat) (k : Nat) (hv : validUtf8 l = true)
    (hk : k < l.length) (hak : l.getD k 0 < 128) :
    validUtf8 (l.drop (k + 1)) = true :=
  validUtf8Aux_drop_ascii l 0 k hv hk hak

theorem isCharBoundary_zero (l : List Nat) : isCharBoundary l 0 = true := by
  simp [isCharBoundary]

theorem isCharBoundary_length (l : List Nat) : isCharBoundary l l.length = true := by
  unfold isCharBoundary
  split_ifs <;> simp_all

theorem isCharBoundary_of_not_cont (l : List Nat) (p : Nat) (hp : p < l.length)
    (hc : isCont (l.getD p 0) = false) : isCharBoundary l p = true := by
  unfold isCharBoundary
  split_ifs <;> simp_all

theorem escapeRepl_some_lt {b : Nat} {r : List Nat} (h : escapeRepl b = some r) :
    b < 128 := by
  unfold escapeRepl at h
  split_ifs at h <;> omega

theorem getD_drop_add (l : List Nat) (m n : Nat) :
    (l.drop m).getD n 0 = l.getD (m + n) 0 := by
  simp [List.getD_eq_getElem?_getD, List.getElem?_drop]

/-- Every slice index pair taken by the scanning loop lies on UTF-8
character boundaries, provided the pending-run start is a boundary and
the suffix from it is valid UTF-8. -/
theorem escapeCutsLoop_boundaries (input : List Nat) :
    ∀ rem i last, input.drop i = rem → last ≤ i →
      validUtf8 (input.drop last) = true → isCharBoundary input last = true →
      ∀ pr ∈ escapeCutsLoop input rem i last,
        isCharBoundary input pr.1 = true ∧ isCharBoundary input pr.2 = true := by
  intro rem
  induction rem with
  | nil =>
    intro i last hrem hle hval hbnd pr hpr
    unfold escapeCutsLoop at hpr
    split_ifs at hpr with hl
    · rw [List.mem_singleton] at hpr
      subst hpr
      exact ⟨hbnd, isCharBoundary_length input⟩
    · simp at hpr
  | cons b rem ih =>
    intro i last hrem hle hval hbnd pr hpr
    have hi : i < input.length := by
      by_contra hc
      push_neg at hc
      rw [List.drop_eq_nil_iff.mpr hc] at hrem
      exact List.noConfusion hrem
    have hcons := List.drop_eq_getElem_cons hi
    rw [hcons] at hrem
    have hb : input[i] = b := (List.cons.injEq _ _ _ _ ▸ hrem).1
    have hrem2 : input.drop (i + 1) = rem := (List.cons.injEq _ _ _ _ ▸ hrem).2
    cases hr : escapeRepl b with
    | none =>
      rw [escapeCutsLoop, hr] at hpr
      exact ih (i + 1) last hrem2 (by omega) hval hbnd pr hpr
    | some repl =>
      have hascii : b < 128 := escapeRepl_some_lt hr
      have hgetD : input.getD i 0 = b := by
        rw [List.getD_eq_getElem input 0 hi, hb]
      -- the suffix after the reserved ASCII byte is valid UTF-8
      have hval2 : validUtf8 (input.drop (i + 1)) = true := by
        have hk : i - last < (input.drop last).length := by
          rw [List.length_drop]; omega
        have hak : (input.drop last).getD (i - last) 0 < 128 := by
          rw [getD_drop_add]
          have : last + (i - last) = i := by omega
          rw [this, hgetD]
          exact hascii
        have := validUtf8_drop_ascii (input.drop last) (i - last) hval hk hak
        rw [List.drop_drop] at this
        have harith : last + (i - last + 1) = i + 1 := by omega
        rwa [harith] at this
      -- the position after the reserved byte is a character boundary
      have hbnd2 : isCharBoundary input (i + 1) = true := by
        by_cases hend : i + 1 = input.length
        · rw [hend]; exact isCharBoundary_length input
        · have hlt : i + 1 < input.length := by omega
          have hcons2 := List.drop_eq_getElem_cons hlt
          rw [hcons2] at hval2
          have hnc := validUtf8_head_not_cont hval2
          refine isCharBoundary_of_not_cont input (i + 1) hlt ?_
          rw [List.getD_eq_getElem input 0 hlt]
          exact hnc
      rw [escapeCutsLoop, hr, List.mem_append] at hpr
      rcases hpr with hpr | hpr
      · split_ifs at hpr with hli
        · rw [List.mem_singleton] at hpr
          subst hpr
          refine ⟨hbnd, ?_⟩
          refine isCharBoundary_of_not_cont input i hi ?_
          rw [hgetD]
          simp [isCont]
          omega
        · simp at hpr
      · exact ih (i + 1) (i + 1) hrem2 (le_refl _) hval2 hbnd2 pr hpr

/-- C9: `escape`/`escape_to` never panic: on valid UTF-8 input every
string-slice operation of the scanning loop (`&input[last..i]` and
`&input[last..]`) uses indices on UTF-8 character boundaries — slice
starts sit just after single-byte ASCII reserved characters — and the
`unwrap` inside `escape` never fires, because writes into a `String`
always succeed. -/
theorem escape_no_panic (input : List Nat) (h : validUtf8 input = true) :
    (∀ pr ∈ escapeCuts input,
        isCharBoundary input pr.1 = true ∧ isCharBoundary input pr.2 = true) ∧
      (escape_to (fun _ => true) input).ok = true := by
  constructor
  · intro pr hpr
    unfold escapeCuts at hpr
    split_ifs at hpr with hf
    · simp at hpr
    · exact escapeCutsLoop_boundaries input input 0 0 (by simp) (le_refl 0)
        (by simpa using h) (isCharBoundary_zero input) pr hpr
  · rw [escape_to_eq_replay, replay_all_true]

/-- C9 witness: the input `<é>` (bytes 60, 0xC3 0xA9, 62) is valid UTF-8
and every slice of the loop lands on a character boundary. -/
theorem escape_no_panic_witness :
    validUtf8 [60, 195, 169, 62] = true ∧
      ((∀ pr ∈ escapeCuts [60, 195, 169, 62],
          isCharBoundary [60, 195, 169, 62] pr.1 = true ∧
            isCharBoundary [60, 195, 169, 62] pr.2 = true) ∧
        (escape_to (fun _ => true) [60, 195, 169, 62]).ok = true) :=
  ⟨by decide, escape_no_panic [60, 195, 169, 62] (by decide)⟩


example : unescape [38, 97, 109, 112, 59] = [38] := by decide

example : unescape [38, 97, 109, 112] = [38] := by decide

example : unescape [38, 108, 116, 59, 100, 105, 118, 38, 103, 116, 59] =
    [60, 100, 105, 118, 62] := by decide

example : unescape [38, 35, 51, 57, 59] = [39] := by decide

example : unescape [38, 35, 120, 50, 55, 59] = [39] := by decide

example : unescape [38, 35, 120, 56, 48, 59] = utf8Encode 8364 := by decide

example : unescape [38, 35, 48, 59] = utf8Encode 65533 := by decide

example : unescape [104, 105] = [104, 105] := by decide

/-- Output of `escape` is the concatenation of the pure chunk trace. -/
theorem escape_eq_chunks_flatten (input : List Nat) :
    escape input = (escapeChunks input).flatten := by
  unfold escape
  rw [escape_to_eq_replay, replay_all_true]
  simp

/-- Agreement of the translated `escape` with the spec-side map (shared
workhorse lemma). -/
theorem escape_eq_escapeSpec_aux (input : List Nat) : escape input = escapeSpec input := by
  rw [escape_eq_chunks_flatten]
  unfold escapeChunks
  by_cases hf : input.all (fun b => !isSpecial b) = true
  · rw [if_pos hf, escapeSpec_of_safe input hf]
    simp
  · rw [if_neg hf, escapeLoopChunks_flatten input input 0 0 (by simp) (le_refl 0)]
    simp

/-- Identity of `escape` on reserved-free byte lists (shared helper). -/
theorem escape_safe_eq (input : List Nat)
    (h : input.all (fun b => !isSpecial b) = true) : escape input = input := by
  rw [escape_eq_escapeSpec_aux, escapeSpec_of_safe input h]

/-- C1: for every input, `escape` replaces each occurrence of the five
reserved bytes `&` `<` `>` `"` `'` by `&amp;` `&lt;` `&gt;` `&quot;`
`&#39;` respectively and passes every other byte through unchanged,
byte-for-byte and in the original order (i.e. it agrees with the
byte-by-byte spec-side map `escapeSpec`). -/
theorem escape_eq_escapeSpec (input : List Nat) : escape input = escapeSpec input :=
  escape_eq_escapeSpec_aux input

/-- C5: escaping is the identity on already-safe text: if no byte of the
input is one of the five reserved bytes, `escape` returns the input
unchanged. -/
theorem escape_safe_id (input : List Nat)
    (h : input.all (fun b => !isSpecial b) = true) : escape input = input :=
  escape_safe_eq input h

/-- C5 witness: the non-ASCII text `é` (bytes 0xC3 0xA9) contains no
reserved byte and passes through `escape` unchanged. -/
theorem escape_safe_id_witness :
    ([195, 169] : List Nat).all (fun b => !isSpecial b) = true ∧
      escape [195, 169] = [195, 169] :=
  ⟨by decide, escape_safe_id [195, 169] (by decide)⟩

/-- C6: when the input contains none of the five reserved bytes and the
sink accepts the first write, `escape_to` performs exactly one bulk write
whose content is the entire input. -/
theorem escape_to_fast_path (okf : Nat → Bool) (input : List Nat)
    (h : input.all (fun b => !isSpecial b) = true) (hk : okf 0 = true) :
    escape_to okf input = ⟨[input], 1, true⟩ := by
  unfold escape_to
  rw [if_pos h]
  unfold writeStr
  rw [if_pos hk]
  simp

/-- C6 witness: on `hello` with an always-accepting sink, `escape_to`
writes the single chunk `hello`. -/
theorem escape_to_fast_path_witness :
    ([104, 101, 108, 108, 111] : List Nat).all (fun b => !isSpecial b) = true ∧
      escape_to (fun _ => true) [104, 101, 108, 108, 111] =
        ⟨[[104, 101, 108, 108, 111]], 1, true⟩ :=
  ⟨by decide, escape_to_fast_path (fun _ => true) [104, 101, 108, 108, 111] (by decide) rfl⟩

/-- C7: the spec's concrete examples: `escape("<script>")` is
`"&lt;script&gt;"` and `escape("a&b")` is `"a&amp;b"` (as byte lists). -/
theorem escape_concrete_examples :
    escape [60, 115, 99, 114, 105, 112, 116, 62] =
        [38, 108, 116, 59, 115, 99, 114, 105, 112, 116, 38, 103, 116, 59] ∧
      escape [97, 38, 98] = [97, 38, 97, 109, 112, 59, 98] := by
  constructor <;> decide

/-- C4: the only error at the `escape_to` boundary is sink failure: with a
sink whose writes all succeed the call returns success for every input
(so `escape`, which writes into a `String`, never fails); and when the
call fails, the write at the returned index failed, every earlier write
succeeded, and the chunks actually written are exactly the successful
writes before the failing one — the first sink failure aborts the call
with no further writes. -/
theorem escape_to_error_taxonomy (okf : Nat → Bool) (input : List Nat) :
    ((∀ k, okf k = true) → (escape_to okf input).ok = true) ∧
      ((escape_to okf input).ok = false →
        okf (escape_to okf input).cnt = false ∧
          (∀ k < (escape_to okf input).cnt, okf k = true) ∧
          (escape_to okf input).chunks = (escapeChunks input).take (escape_to okf input).cnt) ∧
      (escape_to (fun _ => true) input).ok = true := by
  refine ⟨?_, ?_, ?_⟩
  · intro h
    rw [escape_to_eq_replay]
    exact replay_ok_of_all okf [] 0 (escapeChunks input) h
  · intro h
    rw [escape_to_eq_replay] at h ⊢
    obtain ⟨h1, h2, h3, _⟩ := replay_fail okf [] 0 (escapeChunks input) h
    refine ⟨h1, fun k hk => h3 k (Nat.zero_le k) hk, ?_⟩
    rw [h2]
    simp
  · rw [escape_to_eq_replay, replay_all_true]

/-- C4 witness: with an always-accepting sink, escaping `<` succeeds. -/
theorem escape_to_error_taxonomy_witness :
    (escape_to (fun _ => true) [60]).ok = true :=
  (escape_to_error_taxonomy (fun _ => true) [60]).1 (fun _ => rfl)

/-- C10: `escape` refines `escape_to`: whenever the sink does not fail,
the concatenation of all chunks written by `escape_to` equals
`escape input`; and on inputs without reserved bytes the general scanning
loop produces the same joined output as the fast path's single bulk
write. -/
theorem escape_to_refines_escape (okf : Nat → Bool) (input : List Nat)
    (h : (escape_to okf input).ok = true) :
    (escape_to okf input).chunks.flatten = escape input ∧
      (∀ s : List Nat, s.all (fun b => !isSpecial b) = true →
        (escapeLoopChunks s s 0 0).flatten = ([s] : List (List Nat)).flatten) := by
  constructor
  · rw [escape_to_eq_replay] at h ⊢
    rw [replay_ok_chunks okf [] 0 (escapeChunks input) h]
    rw [escape_eq_chunks_flatten]
    simp
  · intro s hs
    rw [escapeLoopChunks_flatten s s 0 0 (by simp) (le_refl 0)]
    simp [escapeSpec_of_safe s hs]

/-- C10 witness: with an always-accepting sink on input `<`, the written
chunks join to `escape "<"`. -/
theorem escape_to_refines_escape_witness :
    (escape_to (fun _ => true) [60]).chunks.flatten = escape [60] :=
  (escape_to_refines_escape (fun _ => true) [60] (by decide)).1

/-- Decoder identity on ampersand-free text: with sufficient fuel the scan
only ever extends the pending literal run, which is flushed whole. -/
theorem unescapeChunks_no_amp (input : List Nat) (hno : ∀ b ∈ input, b ≠ 38) :
    ∀ fuel i last, input.length - i ≤ fuel → last ≤ i → i ≤ input.length →
      (unescapeChunks input fuel i last).flatten = input.drop last := by
  intro fuel
  induction fuel with
  | zero =>
    intro i last hfuel hle hi
    have hilen : input.length ≤ i := by omega
    unfold unescapeChunks
    split_ifs with hl
    · simp
    · push_neg at hl
      rw [List.drop_eq_nil_iff.mpr (by omega)]
      simp
  | succ fuel ih =>
    intro i last hfuel hle hi
    by_cases hlt : i < input.length
    · have hmem : input.getD i 0 ∈ input := by
        rw [List.getD_eq_getElem input 0 hlt]
        exact List.getElem_mem hlt
      have hne : input.getD i 0 ≠ 38 := hno _ hmem
      rw [unescapeChunks, if_pos hlt, if_neg hne]
      exact ih (i + 1) last (by omega) (by omega) (by omega)
    · rw [unescapeChunks, if_neg hlt]
      split_ifs with hl
      · simp
      · push_neg at hl
        rw [List.drop_eq_nil_iff.mpr (by omega)]
        simp

/-- Identity of `unescape` on text containing no ampersand byte. -/
theorem unescape_no_amp (input : List Nat) (hno : ∀ b ∈ input, b ≠ 38) :
    unescape input = input := by
  unfold unescape
  have := unescapeChunks_no_amp input hno input.length 0 0 (by omega) (le_refl 0)
    (by omega)
  simpa using this

/-- C2: round-trip: for any text containing only bytes outside the five
reserved characters, `escape (unescape (escape t)) = escape t` (the claim
is settled against the spec-modelled decoder, since the decoding module
is absent from the sources). -/
theorem escape_unescape_roundtrip (input : List Nat)
    (h : input.all (fun b => !isSpecial b) = true) :
    escape (unescape (escape input)) = escape input := by
  have hesc : escape input = input := escape_safe_eq input h
  have hno : ∀ b ∈ input, b ≠ 38 := by
    intro b hb hb38
    have := List.all_eq_true.mp h b hb
    rw [hb38] at this
    simp [isSpecial] at this
  rw [hesc, unescape_no_amp input hno]
  exact hesc

/-- C2 witness: the reserved-free text `aé` (bytes 97, 0xC3 0xA9) survives
the round trip. -/
theorem escape_unescape_roundtrip_witness :
    ([97, 195, 169] : List Nat).all (fun b => !isSpecial b) = true ∧
      escape (unescape (escape [97, 195, 169])) = escape [97, 195, 169] :=
  ⟨by decide, escape_unescape_roundtrip [97, 195, 169] (by decide)⟩

/-- Values remapped by the legacy substitution table are never in the
disallowed set (they lie in 0x80-0x9F). -/
theorem disallowedCp_legacy_false (n : Nat) (hn : n ∈ legacyTable.map Prod.fst) :
    disallowedCp n = false := by
  simp only [legacyTable, List.map_cons, List.map_nil] at hn
  fin_cases hn <;> decide

/-- Disallowed values have no legacy substitution entry. -/
theorem legacyMap_disallowed_none (n : Nat) (h : disallowedCp n = true) :
    legacyMap n = none := by
  cases hl : legacyMap n with
  | none => rfl
  | some r =>
    exfalso
    unfold legacyMap at hl
    cases hf : legacyTable.find? (fun e => e.1 == n) with
    | none => rw [hf] at hl; simp at hl
    | some e =>
      have hpe := List.find?_some hf
      have hen : e.1 = n := by simpa using hpe
      have hmem : e ∈ legacyTable := List.mem_of_find?_eq_some hf
      have hn : n ∈ legacyTable.map Prod.fst := by
        rw [← hen]
        exact List.mem_map_of_mem Prod.fst hmem
      have hfalse := disallowedCp_legacy_false n hn
      rw [h] at hfalse
      exact Bool.noConfusion hfalse

/-- Every disallowed numeric value resolves to the replacement character
U+FFFD (spec §4.2 step 3): no legacy entry applies, so the disallowed
fallback fires. -/
theorem resolveNumeric_disallowed (n : Nat) (h : disallowedCp n = true) :
    resolveNumeric n = 65533 := by
  unfold resolveNumeric
  rw [legacyMap_disallowed_none n h]
  simp [h]

/-- Digit accumulation over a decimal-digit run followed by a semicolon
consumes exactly the digits. -/
theorem parseDigitsAux_dec_count :
    ∀ (digits : List Nat), (∀ b ∈ digits, 48 ≤ b ∧ b ≤ 57) →
      ∀ acc count, (parseDigitsAux 10 acc count (digits ++ [59])).2 = count + digits.length := by
  intro digits
  induction digits with
  | nil =>
    intro _ acc count
    simp only [List.nil_append, parseDigitsAux, show digitVal 10 59 = none from by decide]
    simp
  | cons b rest ih =>
    intro hd acc count
    have hb := hd b (List.mem_cons_self b rest)
    have hdv : digitVal 10 b = some (b - 48) := by
      unfold digitVal
      rw [if_pos ⟨hb.1, hb.2⟩]
    simp only [List.cons_append, parseDigitsAux, hdv]
    have h2 := ih (fun x hx => hd x (List.mem_cons_of_mem b hx))
      (min (acc * 10 + (b - 48)) 1114112) (count + 1)
    exact h2.trans (by simp only [List.length_cons]; omega)

/-- Element just past a list, read from the appended singleton. -/
theorem getD_append_singleton (l : List Nat) (a : Nat) :
    (l ++ [a]).getD l.length 0 = a := by
  induction l with
  | nil => rfl
  | cons b t ih => simpa using ih

/-- Once the cursor and pending-run start are past the end of the input,
the decoder emits nothing (any fuel). -/
theorem unescapeChunks_past_end (input : List Nat) (f i last : Nat)
    (hi : input.length ≤ i) (hl : input.length ≤ last) :
    unescapeChunks input f i last = [] := by
  cases f with
  | zero => rw [unescapeChunks, if_neg (by omega : ¬ last < input.length)]
  | succ f =>
    rw [unescapeChunks, if_neg (by omega : ¬ i < input.length),
      if_neg (by omega : ¬ last < input.length)]

/-- Single decoder step on a decimal numeric character reference with a
trailing semicolon and an empty pending run: the resolved scalar value's
UTF-8 encoding is emitted and the scan resumes after the semicolon. -/
theorem unescapeChunks_dec_step (input : List Nat) (fuel i : Nat)
    (hi : i < input.length) (hg : input.getD i 0 = 38)
    (h35 : i + 1 < input.length ∧ input.getD (i + 1) 0 = 35)
    (hnx : ¬(i + 2 < input.length ∧
      (input.getD (i + 2) 0 = 120 ∨ input.getD (i + 2) 0 = 88)))
    (hcnt : ¬(parseDigits 10 (input.drop (i + 2))).2 = 0)
    (hsemi : i + 2 + (parseDigits 10 (input.drop (i + 2))).2 < input.length ∧
      input.getD (i + 2 + (parseDigits 10 (input.drop (i + 2))).2) 0 = 59) :
    unescapeChunks input (fuel + 1) i i =
      utf8Encode (resolveNumeric (parseDigits 10 (input.drop (i + 2))).1) ::
        unescapeChunks input fuel (i + 2 + (parseDigits 10 (input.drop (i + 2))).2 + 1)
          (i + 2 + (parseDigits 10 (input.drop (i + 2))).2 + 1) := by
  rw [unescapeChunks]
  rw [if_pos hi, if_pos hg]
  rw [if_neg (Nat.lt_irrefl i)]
  rw [if_pos h35]
  rw [decide_eq_false hnx]
  simp only []
  simp only [Bool.false_eq_true, if_false]
  rw [if_neg hcnt]
  rw [if_pos hsemi]
  simp only [List.nil_append]

/-- End-to-end decoding of a semicolon-terminated decimal character
reference standing alone: the output is the UTF-8 encoding of the
resolved (legacy-substituted or disallowed-replaced) scalar value. -/
theorem unescape_dec_numeric (d : Nat) (ds : List Nat)
    (hd : ∀ b ∈ d :: ds, 48 ≤ b ∧ b ≤ 57) :
    unescape (38 :: 35 :: ((d :: ds) ++ [59])) =
      utf8Encode (resolveNumeric (parseDigits 10 ((d :: ds) ++ [59])).1) := by
  have hd0 := hd d (List.mem_cons_self d ds)
  unfold unescape
  set L := 38 :: 35 :: ((d :: ds) ++ [59]) with hL
  have hlen : L.length = ds.length + 4 := by
    rw [hL]
    simp [List.length_append]
  have hdrop : L.drop (0 + 2) = (d :: ds) ++ [59] := rfl
  have hg2 : L.getD (0 + 2) 0 = d := rfl
  have hcnt0 : (parseDigits 10 ((d :: ds) ++ [59])).2 = ds.length + 1 := by
    unfold parseDigits
    rw [parseDigitsAux_dec_count (d :: ds) hd 0 0]
    simp
  have hfuel : L.length = ds.length + 3 + 1 := by rw [hlen]
  rw [hfuel]
  rw [unescapeChunks_dec_step L (ds.length + 3) 0
    (by rw [hlen]; omega)
    rfl
    ⟨by rw [hlen]; omega, rfl⟩
    (by
      rintro ⟨-, h | h⟩ <;> (rw [hg2] at h; omega))
    (by rw [hdrop, hcnt0]; omega)
    ⟨by rw [hdrop, hcnt0, hlen]; omega, by
      rw [hdrop, hcnt0]
      have hidx : 0 + 2 + (ds.length + 1) = (ds.length + 2) + 1 := by omega
      rw [hidx, hL, List.getD_cons_succ]
      have hidx2 : ds.length + 2 = (ds.length + 1) + 1 := by omega
      rw [hidx2, List.getD_cons_succ]
      rw [List.cons_append, List.getD_cons_succ]
      exact getD_append_singleton ds 59⟩]
  rw [hdrop, hcnt0]
  rw [unescapeChunks_past_end L (ds.length + 3) (0 + 2 + (ds.length + 1) + 1)
    (0 + 2 + (ds.length + 1) + 1) (by rw [hlen]; omega) (by rw [hlen]; omega)]
  simp

/-- C3: decoding is total: `unescape` (decoding into a buffer whose writes
always succeed) succeeds on every input and `unescape_to` fails only when
a write to the supplied sink fails (the returned count indexes the
failing write); disallowed numeric values decode to the replacement
character: every disallowed value resolves to U+FFFD at the resolution
step, every semicolon-terminated decimal reference whose value is
disallowed decodes end-to-end to the replacement character's UTF-8 bytes
239 191 189 — as do the surrogate hex reference `&#xD800;` and the
beyond-maximum `&#1114112;` — and the unrecognized reference
`&notarealentity;` is emitted literally, leaving the text unchanged. -/
theorem unescape_total_sink_only :
    (∀ input : List Nat, (unescape_to (fun _ => true) input).ok = true) ∧
      (∀ (okf : Nat → Bool) (input : List Nat),
        (unescape_to okf input).ok = false → okf (unescape_to okf input).cnt = false) ∧
      (∀ n : Nat, disallowedCp n = true → resolveNumeric n = 65533) ∧
      (∀ (d : Nat) (ds : List Nat), (∀ b ∈ d :: ds, 48 ≤ b ∧ b ≤ 57) →
        disallowedCp (parseDigits 10 ((d :: ds) ++ [59])).1 = true →
        unescape (38 :: 35 :: ((d :: ds) ++ [59])) = [239, 191, 189]) ∧
      (unescape [38, 35, 120, 68, 56, 48, 48, 59] = [239, 191, 189] ∧
        unescape [38, 35, 49, 49, 49, 52, 49, 49, 50, 59] = [239, 191, 189]) ∧
      unescape [38, 110, 111, 116, 97, 114, 101, 97, 108, 101, 110, 116, 105, 116, 121, 59] =
        [38, 110, 111, 116, 97, 114, 101, 97, 108, 101, 110, 116, 105, 116, 121, 59] := by
  refine ⟨?_, ?_, resolveNumeric_disallowed, ?_, ⟨by decide, by decide⟩, by decide⟩
  · intro input
    unfold unescape_to
    rw [replay_all_true]
  · intro okf input h
    unfold unescape_to at h ⊢
    exact (replay_fail okf [] 0 _ h).1
  · intro d ds hd hdis
    rw [unescape_dec_numeric d ds hd, resolveNumeric_disallowed _ hdis]
    decide

/-- C3 witness: with a sink that rejects every write, decoding `&a` fails
and the failing write is the one the returned count names; and the
disallowed decimal reference `&#0;` decodes to the replacement
character's bytes. -/
theorem unescape_total_sink_only_witness :
    (fun _ => false : Nat → Bool) ((unescape_to (fun _ => false) [38, 97]).cnt) = false ∧
      unescape [38, 35, 48, 59] = [239, 191, 189] :=
  ⟨unescape_total_sink_only.2.1 (fun _ => false) [38, 97] (by decide),
    unescape_total_sink_only.2.2.2.1 48 [] (by decide) (by decide)⟩

/-- C8: the empty string maps to the empty string in both directions. -/
theorem empty_to_empty : escape [] = [] ∧ unescape [] = [] := by
  constructor <;> rfl
